import Mathlib

/-!
Verification of the velocity-space threshold-integration engine of the
`macro_lightning` package (`macro_lightning/physics.py` together with the
helpers of `macro_lightning/utils.py`).

The Python code is embedded shallowly over the real numbers: numpy floats
become `ℝ`, numpy arrays of speeds become `List ℝ`, astropy quantities drop
their (consistent, km/s-based) unit tags, and the fallible integrator
`calculate_Mx` returns an `Except` whose error constructors name both the
exceptions the code actually raises and the failure conditions the design
document distinguishes.
-/

namespace MacroLightning

open scoped Classical

/-- Default relative tolerance of `np.allclose`. -/
def rtol : ℝ := 1e-5

/-- Default absolute tolerance of `np.allclose`. -/
def atol : ℝ := 1e-8

/-- Elementwise test of `np.allclose`: `|a - b| <= atol + rtol * |b|`. -/
def isclose (a b : ℝ) : Prop := |a - b| ≤ atol + rtol * |b|

/-- `np.allclose` on two equal-length 1-D arrays (no NaN/broadcast cases arise
in this code: the two arguments are `steps[:-1]` and `steps[1:]`). -/
def allclose : List ℝ → List ℝ → Prop
  | [], [] => True
  | a :: as, b :: bs => isclose a b ∧ allclose as bs
  | _, _ => False

/-- `np.diff`: successive differences `l[i+1] - l[i]`. -/
def diff (l : List ℝ) : List ℝ := List.zipWith (fun a b => b - a) l l.tail

/-- `utils.qnorm` on three components: `np.linalg.norm([vx, vy, vz])`. -/
noncomputable def qnorm3 (vx vy vz : ℝ) : ℝ := Real.sqrt (vx ^ 2 + vy ^ 2 + vz ^ 2)

/-- `utils.qnorm` on four components. -/
noncomputable def qnorm4 (v1 v2 v3 v4 : ℝ) : ℝ :=
  Real.sqrt (v1 ^ 2 + v2 ^ 2 + v3 ^ 2 + v4 ^ 2)

/-- `physics.f_BM_bin`: binned Maxwell–Boltzmann weight
`(vbin/vvir)^3 / pi^(3/2) * exp(-(vx/vvir)^2)`. -/
noncomputable def f_BM_bin (vx vbin vvir : ℝ) : ℝ :=
  (vbin / vvir) ^ 3 / Real.pi ^ ((3 : ℝ) / 2) * Real.exp (-((vx / vvir) ^ 2))

/-- `physics.twobody_vesc`.  The Python default is applied by the truthiness
test `vo = vo or ve2 / _sqrt2`, so both `None` and an explicit `0` select the
circular-orbit default `ve2 / sqrt 2`. -/
noncomputable def twobody_vesc (ve1 ve2 : ℝ) (vo : Option ℝ) : ℝ :=
  let vod : ℝ :=
    match vo with
    | none => ve2 / Real.sqrt 2
    | some v => if v = 0 then ve2 / Real.sqrt 2 else v
  Real.sqrt (ve1 ^ 2 + (ve2 - vod) ^ 2)

/-- `physics._norm_v1_v2`: Euclidean composition `sqrt (v1^2 + v2^2)`. -/
noncomputable def _norm_v1_v2 (v1 v2 : ℝ) : ℝ := Real.sqrt (v1 ^ 2 + v2 ^ 2)

/-- The in-place adjustment `vs[1:] = ...` of `physics.multibody_vesc`:
every velocity except the first is scaled by `1 - 1/sqrt 2` (orbital
velocities `vo = None`, circular orbits), or shifted by `- vo` otherwise. -/
noncomputable def multibody_adjust (vo : Option ℝ) (vs : List ℝ) : List ℝ :=
  match vs with
  | [] => []
  | v :: rest =>
      v :: rest.map (fun w =>
        match vo with
        | none => w * (1 - 1 / Real.sqrt 2)
        | some o => w - o)

/-- `physics.multibody_vesc` with `accumulate=False`:
`functools.reduce(_norm_v1_v2, vs)` (a left fold seeded by the first
element; `reduce` of an empty chain raises, modelled as `none`). -/
noncomputable def multibody_vesc (vo : Option ℝ) (vs : List ℝ) : Option ℝ :=
  match multibody_adjust vo vs with
  | [] => none
  | v :: rest => some (rest.foldl _norm_v1_v2 v)

/-- `physics.multibody_vesc` with `accumulate=True`:
`itertools.accumulate(vs, _norm_v1_v2)`, one entry per initial segment. -/
noncomputable def multibody_vesc_acc (vo : Option ℝ) (vs : List ℝ) : List ℝ :=
  match multibody_adjust vo vs with
  | [] => []
  | v :: rest => List.scanl _norm_v1_v2 v rest

/-- The iteration space `itertools.product(vels, vels, vels)` of both
integrators: the first axis varies slowest, the third fastest. -/
def triples (vels : List ℝ) : List (ℝ × ℝ × ℝ) :=
  vels.flatMap fun vx => vels.flatMap fun vy => vels.map fun vz => (vx, vy, vz)

/-- `arr[arr > 0]`: the compaction step keeping strictly positive entries. -/
noncomputable def filterPos (l : List ℝ) : List ℝ :=
  l.filter fun m => decide (0 < m)

/-- Failure conditions of `calculate_Mx`.  `InvalidGridSpacing` is the
`ValueError` raised by the spacing check, `IndexErrorEmptySteps` the
`IndexError` from reading `steps[0]` of an axis with fewer than two samples,
`NameErrorVrelUndefined` the `NameError` from reading the never-assigned loop
variable `vrel` after a loop in which no triple qualified, and
`EmptyIntegrationDomain` the distinguished failure the design document
recommends for that last situation. -/
inductive MxError
  | InvalidGridSpacing
  | IndexErrorEmptySteps
  | NameErrorVrelUndefined
  | EmptyIntegrationDomain
deriving DecidableEq

/-- One iteration of the `calculate_Mx` loop.  The state is
`(vbar, vrel, Mxs)`: the cumulative flux, the last-assigned relative velocity
(`none` while the Python variable `vrel` is still unbound), and the dense
output array built one slot per visited triple. -/
noncomputable def mxStep (vvir vesc vcirc vmin Arho vstep : ℝ)
    (s : ℝ × Option ℝ × List ℝ) (t : ℝ × ℝ × ℝ) : ℝ × Option ℝ × List ℝ :=
  if qnorm3 t.1 t.2.1 t.2.2 ≤ vesc then
    let maxwellian := f_BM_bin (qnorm3 t.1 t.2.1 t.2.2) vstep vvir
    let vrel := qnorm4 vmin t.1 (t.2.1 - vcirc) t.2.2
    let vbar := s.1 + vrel * maxwellian
    (vbar, some vrel, s.2.2 ++ [Arho * vbar])
  else (s.1, s.2.1, s.2.2 ++ [(0 : ℝ)])

/-- `physics.calculate_Mx`.  Returns `(Mxs, vbar, Vhold)` on success. -/
noncomputable def calculate_Mx (vels : List ℝ) (vvir vesc vcirc vmin Arho : ℝ) :
    Except MxError (List ℝ × ℝ × ℝ) :=
  let steps := diff vels
  if allclose steps.dropLast steps.tail then
    match steps with
    | [] => Except.error MxError.IndexErrorEmptySteps
    | s0 :: _ =>
      let vstep := |s0|
      let r := (triples vels).foldl (mxStep vvir vesc vcirc vmin Arho vstep)
        ((0 : ℝ), (none : Option ℝ), ([] : List ℝ))
      match r.2.1 with
      | none => Except.error MxError.NameErrorVrelUndefined
      | some vrel => Except.ok (filterPos r.2.2, r.1, vrel)
  else Except.error MxError.InvalidGridSpacing

/-- One iteration of the `calculate_Sx` loop.  The state is `(vhold, Sxs)`. -/
noncomputable def sxStep (vesc vcirc vmin minsigma sigma_factor : ℝ)
    (s : ℝ × List ℝ) (t : ℝ × ℝ × ℝ) : ℝ × List ℝ :=
  if qnorm3 t.1 t.2.1 t.2.2 ≤ vesc then
    let vrel0 := qnorm4 vmin t.1 (t.2.1 - vcirc) t.2.2
    let vrel := if vrel0 > s.1 then s.1 else vrel0
    let sx0 := sigma_factor / vrel ^ 2
    let sx := if sx0 < minsigma then minsigma else sx0
    (vrel, s.2 ++ [sx])
  else (s.1, s.2 ++ [(0 : ℝ)])

/-- `physics.calculate_Sx`.  Returns `(Sxs, vhold)`. -/
noncomputable def calculate_Sx
    (vels : List ℝ) (vesc vhold vcirc vmin minsigma sigma_factor : ℝ) :
    List ℝ × ℝ :=
  let r := (triples vels).foldl (sxStep vesc vcirc vmin minsigma sigma_factor)
    (vhold, ([] : List ℝ))
  (filterPos r.2, r.1)

/-- `physics.calculate_Mx_and_Sx`: runs the mass integrator, threads its
carried velocity into the cross-section integrator, and returns
`(Mxs, Sxs, vbar, vhold)`. -/
noncomputable def calculate_Mx_and_Sx (vels : List ℝ)
    (vvir vesc vcirc vmin Arho minsigma sigma_factor : ℝ) :
    Except MxError (List ℝ × List ℝ × ℝ × ℝ) :=
  match calculate_Mx vels vvir vesc vcirc vmin Arho with
  | Except.error e => Except.error e
  | Except.ok (Mxs, vbar, Vhold) =>
    let r := calculate_Sx vels vesc Vhold vcirc vmin minsigma sigma_factor
    Except.ok (Mxs, r.1, vbar, r.2)

/-- The sub-list of grid triples passing the `s <= vesc` escape-velocity
filter, in enumeration order. -/
noncomputable def qualifying (vels : List ℝ) (vesc : ℝ) : List (ℝ × ℝ × ℝ) :=
  (triples vels).filter fun t => decide (qnorm3 t.1 t.2.1 t.2.2 ≤ vesc)

/-- The Earth-frame relative velocity computed at a grid triple:
`qnorm(vmin, vx, vy - vcirc, vz)`. -/
noncomputable def vrelAt (vmin vcirc : ℝ) (t : ℝ × ℝ × ℝ) : ℝ :=
  qnorm4 vmin t.1 (t.2.1 - vcirc) t.2.2

/-- A property of the success value of an `Except`, holding vacuously on
errors. -/
def ExceptOkP {ε α : Type _} (P : α → Prop) : Except ε α → Prop
  | Except.error _ => True
  | Except.ok a => P a

/-- Structural all-positive predicate on a list of reals. -/
def allStrictlyPos : List ℝ → Prop
  | [] => True
  | x :: xs => 0 < x ∧ allStrictlyPos xs

/-- Modelled from the spec: the validation mechanism it describes, comparing
"the smallest and largest successive differences for approximate equality".
This is the spec-side definition compared against the code's elementwise
`allclose (diff vels).dropLast (diff vels).tail` check. -/
def specMinMaxSpacingOK (vels : List ℝ) : Prop :=
  match diff vels with
  | [] => True
  | s :: rest => isclose (rest.foldl min s) (rest.foldl max s)

/-- Modelled from the spec: an evenly spaced axis `v0, v0+d, v0+2d, ...`
with `n` samples. -/
def evenAxis (v0 d : ℝ) (n : ℕ) : List ℝ :=
  (List.range n).map fun i : ℕ => v0 + d * (i : ℝ)

/-! ### Numeric helper lemmas -/

lemma sqrt_two_lb : (1.4142135 : ℝ) < Real.sqrt 2 :=
  (Real.lt_sqrt (by norm_num)).mpr (by norm_num)

lemma sqrt_two_ub : Real.sqrt 2 < (1.4142136 : ℝ) :=
  (Real.sqrt_lt' (by norm_num)).mpr (by norm_num)

lemma sqrt_two_pos : (0 : ℝ) < Real.sqrt 2 := by
  have := sqrt_two_lb; linarith

lemma sqrt_two_sq : Real.sqrt 2 ^ 2 = 2 := Real.sq_sqrt (by norm_num)

/-- `42.1 / sqrt 2` rationalized. -/
lemma div_sqrt_two_421 : (42.1 : ℝ) / Real.sqrt 2 = 21.05 * Real.sqrt 2 := by
  have h0 : Real.sqrt 2 ≠ 0 := ne_of_gt sqrt_two_pos
  field_simp
  nlinarith [sqrt_two_sq]

/-- C9: passing an explicit zero orbital velocity to `twobody_vesc` silently
selects the circular-orbit default `ve2 / sqrt 2`, because the Python default
is applied by the truthiness test `vo = vo or ve2 / _sqrt2`; the result is
`sqrt (ve1^2 + (ve2 - ve2/sqrt 2)^2)`, the same as with `vo` omitted, and not
`sqrt (ve1^2 + ve2^2)`. -/
theorem c9_twobody_vesc_zero_vo_replaced (ve1 ve2 : ℝ) :
    twobody_vesc ve1 ve2 (some 0) = twobody_vesc ve1 ve2 none ∧
    twobody_vesc ve1 ve2 (some 0) =
      Real.sqrt (ve1 ^ 2 + (ve2 - ve2 / Real.sqrt 2) ^ 2) := by
  constructor <;> simp [twobody_vesc]

/-- C6: `twobody_vesc` returns `sqrt (ve1^2 + (ve2 - vo)^2)`, with `vo`
defaulting to `ve2 / sqrt 2` when omitted; at `ve1 = 11.186`, `ve2 = 42.1`
with `vo` unspecified the result is approximately `16.6486` (bracketed here
between `16.6485` and `16.6487`). -/
theorem c6_twobody_vesc_formula :
    (∀ ve1 ve2 : ℝ, twobody_vesc ve1 ve2 none =
      Real.sqrt (ve1 ^ 2 + (ve2 - ve2 / Real.sqrt 2) ^ 2))
    ∧ (∀ ve1 ve2 vo : ℝ, vo ≠ 0 → twobody_vesc ve1 ve2 (some vo) =
      Real.sqrt (ve1 ^ 2 + (ve2 - vo) ^ 2))
    ∧ 16.6485 < twobody_vesc 11.186 42.1 none
    ∧ twobody_vesc 11.186 42.1 none < 16.6487 := by
  refine ⟨fun ve1 ve2 => rfl, fun ve1 ve2 vo hvo => by simp [twobody_vesc, hvo], ?_, ?_⟩
  · show (16.6485 : ℝ) < Real.sqrt (11.186 ^ 2 + (42.1 - 42.1 / Real.sqrt 2) ^ 2)
    rw [div_sqrt_two_421, Real.lt_sqrt (by norm_num)]
    nlinarith [sqrt_two_sq, sqrt_two_ub, sqrt_two_lb]
  · show Real.sqrt (11.186 ^ 2 + (42.1 - 42.1 / Real.sqrt 2) ^ 2) < 16.6487
    rw [div_sqrt_two_421, Real.sqrt_lt' (by norm_num)]
    nlinarith [sqrt_two_sq, sqrt_two_ub, sqrt_two_lb]

/-- Witness for C6 at concrete inputs: `vo = 5` is nonzero and is used as
supplied. -/
theorem c6_twobody_vesc_formula_witness :
    (5 : ℝ) ≠ 0 ∧ twobody_vesc 3 4 (some 5) = Real.sqrt (3 ^ 2 + (4 - 5) ^ 2) :=
  ⟨by norm_num, c6_twobody_vesc_formula.2.1 3 4 5 (by norm_num)⟩

lemma one_div_sqrt_two : (1 : ℝ) / Real.sqrt 2 = Real.sqrt 2 / 2 := by
  have h0 : Real.sqrt 2 ≠ 0 := ne_of_gt sqrt_two_pos
  field_simp

/-- A left fold of the Euclidean composition starting from `sqrt s` adds the
squares of the remaining entries under the root. -/
lemma foldl_norm_sqrt (l : List ℝ) : ∀ s : ℝ, 0 ≤ s →
    List.foldl _norm_v1_v2 (Real.sqrt s) l =
      Real.sqrt (s + (l.map fun x => x ^ 2).sum) := by
  induction l with
  | nil => intro s _; simp
  | cons a l ih =>
      intro s hs
      have h1 : _norm_v1_v2 (Real.sqrt s) a = Real.sqrt (s + a ^ 2) := by
        rw [_norm_v1_v2, Real.sq_sqrt hs]
      rw [List.foldl_cons, h1, ih (s + a ^ 2) (by positivity), List.map_cons,
        List.sum_cons, add_assoc]

/-- `List.scanl` sampled at position `i` is the fold of the first `i`
elements. -/
lemma scanl_get_eq_foldl_take {α β : Type _} (f : β → α → β) (l : List α) :
    ∀ (b : β) (i : ℕ), i ≤ l.length →
      (List.scanl f b l).get? i = some (List.foldl f b (l.take i)) := by
  induction l with
  | nil =>
      intro b i hi
      have h0 : i = 0 := Nat.le_zero.mp hi
      subst h0
      simp [List.scanl]
  | cons a l ih =>
      intro b i hi
      cases i with
      | zero => simp [List.scanl]
      | succ i =>
          rw [List.scanl_cons]
          have hi' : i ≤ l.length := by simpa using hi
          simp only [List.get?_cons_succ, List.take_succ_cons, List.foldl_cons]
          exact ih (f b a) i hi'

/-- C5: `multibody_vesc` with `vo = None` and `accumulate = False` scales
every velocity but the first by `1 - 1/sqrt 2` and left-reduces with the
Euclidean composition, which collapses to a single square root of a sum of
squares; a single velocity is returned unchanged; with `accumulate = True`
the entry at position `i` is the reduction of the first `i + 1` velocities;
and on the chain `11.186, 42.1, 550` the result is approximately `161.9493`
(bracketed between `161.949` and `161.950`). -/
theorem c5_multibody_vesc_reduction :
    (∀ v : ℝ, multibody_vesc none [v] = some v)
    ∧ (∀ (v w : ℝ) (rest : List ℝ),
        multibody_vesc none (v :: w :: rest) =
          some (Real.sqrt (v ^ 2 +
            ((w :: rest).map fun x => (x * (1 - 1 / Real.sqrt 2)) ^ 2).sum)))
    ∧ (∀ (vs : List ℝ) (i : ℕ), i < vs.length →
        (multibody_vesc_acc none vs).get? i = multibody_vesc none (vs.take (i + 1)))
    ∧ (multibody_vesc none [11.186, 42.1, 550]).elim False
        (fun r => 161.949 < r ∧ r < 161.950) := by
  have hclosed : ∀ (v w : ℝ) (rest : List ℝ),
      multibody_vesc none (v :: w :: rest) =
        some (Real.sqrt (v ^ 2 +
          ((w :: rest).map fun x => (x * (1 - 1 / Real.sqrt 2)) ^ 2).sum)) := by
    intro v w rest
    have hv : _norm_v1_v2 v (w * (1 - 1 / Real.sqrt 2)) =
        Real.sqrt (v ^ 2 + (w * (1 - 1 / Real.sqrt 2)) ^ 2) := rfl
    simp only [multibody_vesc, multibody_adjust, List.map_cons, List.foldl_cons, hv]
    rw [foldl_norm_sqrt _ _ (by positivity)]
    simp [List.map_map, Function.comp_def, add_assoc]
  refine ⟨fun v => rfl, hclosed, ?_, ?_⟩
  · intro vs i hi
    match vs with
    | v :: rest =>
        have hlen : i ≤ rest.length := by simpa using Nat.lt_succ_iff.mp (by simpa using hi)
        simp only [multibody_vesc_acc, multibody_adjust]
        rw [scanl_get_eq_foldl_take _ _ _ _ (by simpa using hlen)]
        simp only [List.take_succ_cons, multibody_vesc, multibody_adjust]
        rw [← List.map_take]
  · rw [hclosed]
    simp only [Option.elim, List.map_cons, List.map_nil, List.sum_cons, List.sum_nil]
    constructor
    · rw [Real.lt_sqrt (by norm_num), one_div_sqrt_two]
      nlinarith [sqrt_two_sq, sqrt_two_lb, sqrt_two_ub]
    · rw [Real.sqrt_lt' (by norm_num), one_div_sqrt_two]
      nlinarith [sqrt_two_sq, sqrt_two_lb, sqrt_two_ub]

/-- Witness for C5 at a concrete chain: the accumulated entry at position 1
of the chain `3, 4, 12` is the two-body reduction of its first two
velocities. -/
theorem c5_multibody_vesc_reduction_witness :
    1 < ([(3 : ℝ), 4, 12]).length ∧
      (multibody_vesc_acc none [(3 : ℝ), 4, 12]).get? 1 =
        multibody_vesc none ([(3 : ℝ), 4, 12].take 2) :=
  ⟨by norm_num, c5_multibody_vesc_reduction.2.2.1 [(3 : ℝ), 4, 12] 1 (by norm_num)⟩

/-! ### Structural lemmas about the integration loops -/

lemma length_flatMap_const {α β : Type _} (l : List α) (f : α → List β) (n : ℕ)
    (h : ∀ a, (f a).length = n) : (l.flatMap f).length = l.length * n := by
  induction l with
  | nil => simp
  | cons a l ih =>
      simp only [List.flatMap_cons, List.length_append, h, ih, List.length_cons]
      ring

lemma triples_length (vels : List ℝ) : (triples vels).length = vels.length ^ 3 := by
  rw [triples, length_flatMap_const _ _ (vels.length * vels.length)]
  · ring
  · intro vx
    rw [length_flatMap_const _ _ vels.length]
    intro vy
    simp

lemma mx_foldl_length (vvir vesc vcirc vmin Arho vstep : ℝ) :
    ∀ (ts : List (ℝ × ℝ × ℝ)) (s : ℝ × Option ℝ × List ℝ),
      ((ts.foldl (mxStep vvir vesc vcirc vmin Arho vstep) s).2.2).length =
        s.2.2.length + ts.length := by
  intro ts
  induction ts with
  | nil => intro s; simp
  | cons t ts ih =>
      intro s
      rw [List.foldl_cons, ih]
      by_cases h : qnorm3 t.1 t.2.1 t.2.2 ≤ vesc <;>
        simp [mxStep, h] <;> omega

lemma sx_foldl_length (vesc vcirc vmin minsigma sigma_factor : ℝ) :
    ∀ (ts : List (ℝ × ℝ × ℝ)) (s : ℝ × List ℝ),
      ((ts.foldl (sxStep vesc vcirc vmin minsigma sigma_factor) s).2).length =
        s.2.length + ts.length := by
  intro ts
  induction ts with
  | nil => intro s; simp
  | cons t ts ih =>
      intro s
      rw [List.foldl_cons, ih]
      by_cases h : qnorm3 t.1 t.2.1 t.2.2 ≤ vesc <;>
        simp [sxStep, h] <;> omega

lemma allStrictlyPos_filterPos (l : List ℝ) : allStrictlyPos (filterPos l) := by
  induction l with
  | nil => exact trivial
  | cons x l ih =>
      by_cases h : (0 : ℝ) < x
      · rw [filterPos, List.filter_cons, if_pos (decide_eq_true h)]
        exact ⟨h, ih⟩
      · rw [filterPos, List.filter_cons, if_neg (by simpa using h)]
        exact ih

lemma filterPos_length_le (l : List ℝ) : (filterPos l).length ≤ l.length :=
  List.length_filter_le _ l

/-- C7: the compacted mass and cross-section arrays contain only strictly
positive values, and each has length at most `N^3` for an `N`-sample velocity
axis (the dense arrays have exactly `N^3` slots and the zero sentinels are
filtered out). -/
theorem c7_outputs_positive_and_bounded
    (vels : List ℝ) (vvir vesc vcirc vmin Arho vhold minsigma sigma_factor : ℝ) :
    ExceptOkP (fun r => allStrictlyPos r.1 ∧ r.1.length ≤ vels.length ^ 3)
      (calculate_Mx vels vvir vesc vcirc vmin Arho)
    ∧ allStrictlyPos (calculate_Sx vels vesc vhold vcirc vmin minsigma sigma_factor).1
    ∧ (calculate_Sx vels vesc vhold vcirc vmin minsigma sigma_factor).1.length ≤
        vels.length ^ 3 := by
  refine ⟨?_, ?_, ?_⟩
  · simp only [calculate_Mx]
    split
    · split
      · exact trivial
      · split
        · exact trivial
        · refine ⟨allStrictlyPos_filterPos _, ?_⟩
          refine le_trans (filterPos_length_le _) ?_
          rw [mx_foldl_length, triples_length]
          simp
    · exact trivial
  · simp only [calculate_Sx]
    exact allStrictlyPos_filterPos _
  · simp only [calculate_Sx]
    refine le_trans (filterPos_length_le _) ?_
    rw [sx_foldl_length, triples_length]
    simp

/-- C8: the threshold calculator is a deterministic function of its
arguments — equal argument tuples give equal outputs (in this embedding the
computation carries no state besides its explicit arguments, mirroring the
absence of cross-call mutable state in the source). -/
theorem c8_threshold_calculator_deterministic
    (a b : List ℝ × ℝ × ℝ × ℝ × ℝ × ℝ × ℝ × ℝ) (h : a = b) :
    calculate_Mx_and_Sx a.1 a.2.1 a.2.2.1 a.2.2.2.1 a.2.2.2.2.1 a.2.2.2.2.2.1
        a.2.2.2.2.2.2.1 a.2.2.2.2.2.2.2 =
      calculate_Mx_and_Sx b.1 b.2.1 b.2.2.1 b.2.2.2.1 b.2.2.2.2.1 b.2.2.2.2.2.1
        b.2.2.2.2.2.2.1 b.2.2.2.2.2.2.2 := by rw [h]

/-- Witness for C8: two identical calls on a concrete argument tuple agree. -/
theorem c8_threshold_calculator_deterministic_witness :
    (([(0 : ℝ), 1], (250 : ℝ), 550, 220, 42.1, 3, 6e-8, 1) =
      ([(0 : ℝ), 1], (250 : ℝ), 550, 220, 42.1, 3, 6e-8, 1))
    ∧ calculate_Mx_and_Sx [(0 : ℝ), 1] 250 550 220 42.1 3 6e-8 1 =
        calculate_Mx_and_Sx [(0 : ℝ), 1] 250 550 220 42.1 3 6e-8 1 :=
  ⟨rfl, c8_threshold_calculator_deterministic
    ([(0 : ℝ), 1], (250 : ℝ), 550, 220, 42.1, 3, 6e-8, 1)
    ([(0 : ℝ), 1], (250 : ℝ), 550, 220, 42.1, 3, 6e-8, 1) rfl⟩

/-- The carried-velocity component of the mass-integrator fold is the
relative velocity at the last qualifying triple, or the initial value when no
triple qualifies. -/
lemma mx_foldl_vrel (vvir vesc vcirc vmin Arho vstep : ℝ)
    (ts : List (ℝ × ℝ × ℝ)) (s : ℝ × Option ℝ × List ℝ) :
    ((ts.foldl (mxStep vvir vesc vcirc vmin Arho vstep) s).2.1) =
      ((ts.filter fun t => decide (qnorm3 t.1 t.2.1 t.2.2 ≤ vesc)).getLast?).elim
        s.2.1 (fun t => some (vrelAt vmin vcirc t)) := by
  induction ts using List.reverseRecOn with
  | nil => simp
  | append_singleton ts t ih =>
      rw [List.foldl_append, List.foldl_cons, List.foldl_nil, List.filter_append]
      by_cases h : qnorm3 t.1 t.2.1 t.2.2 ≤ vesc
      · rw [show List.filter (fun t => decide (qnorm3 t.1 t.2.1 t.2.2 ≤ vesc)) [t] = [t] by
            simp [List.filter, decide_eq_true h]]
        rw [List.getLast?_concat]
        simp [mxStep, h, vrelAt]
      · rw [show List.filter (fun t => decide (qnorm3 t.1 t.2.1 t.2.2 ≤ vesc)) [t] = [] by
            simp [List.filter, h]]
        rw [List.append_nil]
        simp only [mxStep, if_neg h]
        exact ih

/-- Specialization of `mx_foldl_vrel` to the full grid, phrased through
`qualifying`. -/
lemma mx_foldl_vrel_qualifying (vvir vesc vcirc vmin Arho vstep : ℝ)
    (vels : List ℝ) (s : ℝ × Option ℝ × List ℝ) :
    (((triples vels).foldl (mxStep vvir vesc vcirc vmin Arho vstep) s).2.1) =
      ((qualifying vels vesc).getLast?).elim
        s.2.1 (fun t => some (vrelAt vmin vcirc t)) :=
  mx_foldl_vrel vvir vesc vcirc vmin Arho vstep (triples vels) s

/-- C1: on a grid whose every triple is faster than the escape velocity the
code does not return the `EmptyIntegrationDomain` failure the design calls
for — it crashes by reading the never-assigned loop variable `vrel`
(modelled by `NameErrorVrelUndefined`), and no input at all can make
`calculate_Mx` produce `EmptyIntegrationDomain`. -/
theorem c1_empty_domain_crashes_not_distinguished :
    calculate_Mx [600, 700] 250 550 220 42.1 3 =
      Except.error MxError.NameErrorVrelUndefined
    ∧ ∀ (vels : List ℝ) (vvir vesc vcirc vmin Arho : ℝ),
        calculate_Mx vels vvir vesc vcirc vmin Arho ≠
          Except.error MxError.EmptyIntegrationDomain := by
  constructor
  · have hall : ∀ t ∈ triples [(600 : ℝ), 700], ¬ qnorm3 t.1 t.2.1 t.2.2 ≤ 550 := by
      intro t ht
      have h8 : triples [(600 : ℝ), 700] =
          [(600, 600, 600), (600, 600, 700), (600, 700, 600), (600, 700, 700),
           (700, 600, 600), (700, 600, 700), (700, 700, 600), (700, 700, 700)] := rfl
      rw [h8] at ht
      simp only [List.mem_cons, List.not_mem_nil, or_false] at ht
      rcases ht with rfl | rfl | rfl | rfl | rfl | rfl | rfl | rfl <;>
        · rw [qnorm3, not_le]
          exact Real.lt_sqrt_of_sq_lt (by norm_num)
    have hfilter : (triples [(600 : ℝ), 700]).filter
        (fun t => decide (qnorm3 t.1 t.2.1 t.2.2 ≤ (550 : ℝ))) = [] := by
      rw [List.filter_eq_nil_iff]
      intro t ht
      simpa using hall t ht
    have hsteps : diff [(600 : ℝ), 700] = [100] := by norm_num [diff]
    have hvrel := mx_foldl_vrel 250 550 220 42.1 3 |(100 : ℝ)|
      (triples [(600 : ℝ), 700]) (0, none, [])
    rw [hfilter] at hvrel
    simp only [List.getLast?_nil, Option.elim] at hvrel
    simp only [calculate_Mx, hsteps]
    have hc : allclose ([(100 : ℝ)]).dropLast ([(100 : ℝ)]).tail := trivial
    rw [if_pos hc, hvrel]
  · intro vels vvir vesc vcirc vmin Arho
    simp only [calculate_Mx]
    split
    · split
      · simp
      · split <;> simp
    · simp

/-- C2: whenever the spacing validation passes, the axis has at least one
step, and at least one grid triple qualifies, the carried-velocity output of
`calculate_Mx` is the Earth-frame relative velocity
`qnorm (vmin, vx, vy - vcirc, vz)` evaluated at the *last* qualifying triple
in enumeration order. -/
theorem c2_vhold_is_last_qualifying_vrel
    (vels : List ℝ) (vvir vesc vcirc vmin Arho s0 : ℝ) (rest : List ℝ)
    (t : ℝ × ℝ × ℝ)
    (hspace : allclose (diff vels).dropLast (diff vels).tail)
    (hsteps : diff vels = s0 :: rest)
    (hlast : (qualifying vels vesc).getLast? = some t) :
    Except.map (fun r => r.2.2) (calculate_Mx vels vvir vesc vcirc vmin Arho) =
      Except.ok (vrelAt vmin vcirc t) := by
  simp only [calculate_Mx, hsteps]
  rw [if_pos (by rw [← hsteps]; exact hspace)]
  rw [mx_foldl_vrel_qualifying, hlast]
  simp [Except.map]

/-- Witness for C2: on the axis `[0, 1]` with escape velocity `2` every
triple qualifies, the last being `(1, 1, 1)`. -/
theorem c2_vhold_is_last_qualifying_vrel_witness :
    allclose (diff [(0 : ℝ), 1]).dropLast (diff [(0 : ℝ), 1]).tail
    ∧ diff [(0 : ℝ), 1] = [1]
    ∧ (qualifying [(0 : ℝ), 1] 2).getLast? = some (1, 1, 1)
    ∧ Except.map (fun r => r.2.2) (calculate_Mx [(0 : ℝ), 1] 250 2 220 42.1 3) =
        Except.ok (vrelAt 42.1 220 ((1 : ℝ), 1, 1)) := by
  have h1 : allclose (diff [(0 : ℝ), 1]).dropLast (diff [(0 : ℝ), 1]).tail := trivial
  have h2 : diff [(0 : ℝ), 1] = [1] := by norm_num [diff]
  have h3 : (qualifying [(0 : ℝ), 1] 2).getLast? = some (1, 1, 1) := by
    have h8 : ∀ t ∈ triples [(0 : ℝ), 1],
        (fun t : ℝ × ℝ × ℝ => decide (qnorm3 t.1 t.2.1 t.2.2 ≤ (2 : ℝ))) t = true := by
      intro t ht
      have he : triples [(0 : ℝ), 1] =
          [(0, 0, 0), (0, 0, 1), (0, 1, 0), (0, 1, 1),
           (1, 0, 0), (1, 0, 1), (1, 1, 0), (1, 1, 1)] := rfl
      rw [he] at ht
      simp only [List.mem_cons, List.not_mem_nil, or_false] at ht
      rcases ht with rfl | rfl | rfl | rfl | rfl | rfl | rfl | rfl <;>
        · refine decide_eq_true ?_
          rw [qnorm3, Real.sqrt_le_iff]
          norm_num
    rw [qualifying, List.filter_eq_self.mpr h8]
    rfl
  exact ⟨h1, h2, h3,
    c2_vhold_is_last_qualifying_vrel [(0 : ℝ), 1] 250 2 220 42.1 3 1 [] (1, 1, 1) h1 h2 h3⟩

/-- The carried-velocity update of one cross-section iteration: on a
qualifying triple it becomes `min (vrel, vhold)`, otherwise it is unchanged;
it also never depends on the output accumulator. -/
lemma sxStep_vhold (vesc vcirc vmin minsigma sigma_factor vh : ℝ)
    (acc : List ℝ) (t : ℝ × ℝ × ℝ) :
    (sxStep vesc vcirc vmin minsigma sigma_factor (vh, acc) t).1 =
      if qnorm3 t.1 t.2.1 t.2.2 ≤ vesc then min (vrelAt vmin vcirc t) vh else vh := by
  simp only [vrelAt]
  by_cases h : qnorm3 t.1 t.2.1 t.2.2 ≤ vesc
  · rw [if_pos h]
    simp only [sxStep, if_pos h]
    rcases le_or_lt (qnorm4 vmin t.1 (t.2.1 - vcirc) t.2.2) vh with h2 | h2
    · rw [if_neg (not_lt.mpr h2)]
      exact (min_eq_left h2).symm
    · rw [if_pos h2]
      exact (min_eq_right h2.le).symm
  · rw [if_neg h]
    simp only [sxStep, if_neg h]

lemma sxStep_vhold_le (vesc vcirc vmin minsigma sigma_factor vh : ℝ)
    (acc : List ℝ) (t : ℝ × ℝ × ℝ) :
    (sxStep vesc vcirc vmin minsigma sigma_factor (vh, acc) t).1 ≤ vh := by
  rw [sxStep_vhold]
  split
  · exact min_le_right _ _
  · exact le_rfl

/-- A scan along a step function that never increases its state is a
non-increasing chain. -/
lemma chain'_scanl_of_le {α : Type _} (f : ℝ → α → ℝ) (hf : ∀ v t, f v t ≤ v) :
    ∀ (l : List α) (b : ℝ),
      List.Chain' (fun a c => c ≤ a) (List.scanl f b l) := by
  intro l
  induction l with
  | nil => intro b; simp
  | cons a l ih =>
      intro b
      rw [List.scanl_cons]
      refine List.chain'_cons'.mpr ⟨?_, ih (f b a)⟩
      intro y hy
      have hh : (List.scanl f (f b a) l).head? = some (f b a) := by
        cases l <;> simp [List.scanl]
      have hy2 : y ∈ (List.scanl f (f b a) l).head? := hy
      have hy' : y = f b a := by
        rw [hh, Option.mem_def, Option.some_inj] at hy2
        exact hy2.symm
      rw [hy']
      exact hf b a

lemma sx_foldl_fst (vesc vcirc vmin minsigma sigma_factor : ℝ) :
    ∀ (ts : List (ℝ × ℝ × ℝ)) (vh : ℝ) (acc : List ℝ),
      ((ts.foldl (sxStep vesc vcirc vmin minsigma sigma_factor) (vh, acc)).1) =
        ts.foldl
          (fun v t => (sxStep vesc vcirc vmin minsigma sigma_factor (v, []) t).1) vh := by
  intro ts
  induction ts with
  | nil => intro vh acc; rfl
  | cons t ts ih =>
      intro vh acc
      rw [List.foldl_cons, List.foldl_cons]
      have hsplit : sxStep vesc vcirc vmin minsigma sigma_factor (vh, acc) t =
          ((sxStep vesc vcirc vmin minsigma sigma_factor (vh, acc) t).1,
           (sxStep vesc vcirc vmin minsigma sigma_factor (vh, acc) t).2) := rfl
      rw [hsplit, ih]
      have hacc : (sxStep vesc vcirc vmin minsigma sigma_factor (vh, acc) t).1 =
          (sxStep vesc vcirc vmin minsigma sigma_factor (vh, []) t).1 := by
        rw [sxStep_vhold, sxStep_vhold]
      rw [hacc]

/-- C3: within one `calculate_Sx` run the carried velocity, sampled after
each visited triple starting from the handoff value, forms a monotonically
non-increasing sequence; on each qualifying triple it is updated to
`min (vrel, vhold)` and on the others it is unchanged, and the final carried
velocity returned by `calculate_Sx` is the fold of these updates. -/
theorem c3_sx_carried_velocity_monotone
    (vels : List ℝ) (vesc vhold vcirc vmin minsigma sigma_factor : ℝ) :
    (∀ (vh : ℝ) (acc : List ℝ) (t : ℝ × ℝ × ℝ),
      (sxStep vesc vcirc vmin minsigma sigma_factor (vh, acc) t).1 =
        if qnorm3 t.1 t.2.1 t.2.2 ≤ vesc then min (vrelAt vmin vcirc t) vh else vh)
    ∧ List.Chain' (fun a c => c ≤ a)
        (List.scanl
          (fun v t => (sxStep vesc vcirc vmin minsigma sigma_factor (v, []) t).1)
          vhold (triples vels))
    ∧ (calculate_Sx vels vesc vhold vcirc vmin minsigma sigma_factor).2 =
        (triples vels).foldl
          (fun v t => (sxStep vesc vcirc vmin minsigma sigma_factor (v, []) t).1)
          vhold := by
  refine ⟨fun vh acc t => sxStep_vhold _ _ _ _ _ _ _ _, ?_, ?_⟩
  · exact chain'_scanl_of_le _
      (fun v t => sxStep_vhold_le vesc vcirc vmin minsigma sigma_factor v [] t)
      (triples vels) vhold
  · simp only [calculate_Sx]
    exact sx_foldl_fst vesc vcirc vmin minsigma sigma_factor (triples vels) vhold []

/-- The Maxwellian bin weight is non-negative for a non-negative bin width
and positive virial velocity. -/
lemma f_BM_bin_nonneg (vx vbin vvir : ℝ) (hb : 0 ≤ vbin) (hv : 0 < vvir) :
    0 ≤ f_BM_bin vx vbin vvir := by
  rw [f_BM_bin]
  have h1 : 0 ≤ (vbin / vvir) ^ 3 := pow_nonneg (div_nonneg hb hv.le) 3
  have h2 : (0 : ℝ) < Real.pi ^ ((3 : ℝ) / 2) :=
    Real.rpow_pos_of_pos Real.pi_pos _
  exact mul_nonneg (div_nonneg h1 h2.le) (Real.exp_pos _).le

lemma filterPos_singleton_sub (e : ℝ) : filterPos [e] ⊆ [e] := by
  intro x hx
  exact List.mem_of_mem_filter hx

/-- Invariant of the mass-integrator fold: with non-negative `Arho`, positive
`vvir` and non-negative bin width, the positive entries of the accumulated
dense array stay sorted and bounded by `Arho` times the running flux. -/
lemma mx_foldl_sorted (vvir vesc vcirc vmin Arho vstep : ℝ)
    (hA : 0 ≤ Arho) (hv : 0 < vvir) (hstep : 0 ≤ vstep) :
    ∀ (ts : List (ℝ × ℝ × ℝ)) (b : ℝ) (r : Option ℝ) (acc : List ℝ),
      0 ≤ b → List.Pairwise (fun x y => x ≤ y) (filterPos acc) →
      (∀ x ∈ filterPos acc, x ≤ Arho * b) →
      List.Pairwise (fun x y => x ≤ y)
        (filterPos ((ts.foldl (mxStep vvir vesc vcirc vmin Arho vstep)
          (b, r, acc)).2.2)) := by
  intro ts
  induction ts with
  | nil => intro b r acc _ hpair _; exact hpair
  | cons t ts ih =>
      intro b r acc hb hpair hbound
      rw [List.foldl_cons]
      by_cases h : qnorm3 t.1 t.2.1 t.2.2 ≤ vesc
      · simp only [mxStep, if_pos h]
        set w := f_BM_bin (qnorm3 t.1 t.2.1 t.2.2) vstep vvir with hw
        set vrel := qnorm4 vmin t.1 (t.2.1 - vcirc) t.2.2 with hvrel
        have hwpos : 0 ≤ w := f_BM_bin_nonneg _ _ _ hstep hv
        have hvrelpos : 0 ≤ vrel := Real.sqrt_nonneg _
        have hble : b ≤ b + vrel * w := le_add_of_nonneg_right (mul_nonneg hvrelpos hwpos)
        have hb' : 0 ≤ b + vrel * w := le_trans hb hble
        have hAb : Arho * b ≤ Arho * (b + vrel * w) := mul_le_mul_of_nonneg_left hble hA
        apply ih (b + vrel * w) (some vrel) (acc ++ [Arho * (b + vrel * w)]) hb'
        · rw [filterPos, List.filter_append]
          rw [List.pairwise_append]
          refine ⟨hpair, List.Pairwise.sublist (List.filter_sublist _) ?_, ?_⟩
          · exact List.pairwise_singleton _ _
          · intro x hx y hy
            have hy' := filterPos_singleton_sub _ hy
            rw [List.mem_singleton] at hy'
            rw [hy']
            exact le_trans (hbound x hx) hAb
        · intro x hx
          rw [filterPos, List.filter_append, List.mem_append] at hx
          rcases hx with hx | hx
          · exact le_trans (hbound x hx) hAb
          · have hx' := filterPos_singleton_sub _ hx
            rw [List.mem_singleton] at hx'
            rw [hx']
      · simp only [mxStep, if_neg h]
        have h0 : filterPos (acc ++ [(0 : ℝ)]) = filterPos acc := by
          rw [filterPos, List.filter_append]
          simp [filterPos]
        apply ih b r (acc ++ [(0 : ℝ)]) hb
        · rw [h0]; exact hpair
        · rw [h0]; exact hbound

/-- C10: under physically valid parameters (`0 ≤ Arho`, `0 < vvir`) the
compacted mass array returned by `calculate_Mx` is non-decreasing in output
order: every retained entry is `Arho` times the running cumulative flux at
its write, and every flux increment `vrel * weight` is non-negative. -/
theorem c10_mass_array_nondecreasing (vels : List ℝ)
    (vvir vesc vcirc vmin Arho : ℝ) (hA : 0 ≤ Arho) (hv : 0 < vvir) :
    ExceptOkP (fun r => List.Chain' (fun x y => x ≤ y) r.1)
      (calculate_Mx vels vvir vesc vcirc vmin Arho) := by
  simp only [calculate_Mx]
  split
  · split
    · exact trivial
    · split
      · exact trivial
      · refine List.Pairwise.chain' ?_
        exact mx_foldl_sorted vvir vesc vcirc vmin Arho _ hA hv (abs_nonneg _)
          (triples vels) 0 none [] le_rfl (List.Pairwise.nil) (by intro x hx; cases hx)
  · exact trivial

/-- Witness for C10 at concrete physical parameters. -/
theorem c10_mass_array_nondecreasing_witness :
    (0 : ℝ) ≤ 3 ∧ (0 : ℝ) < 250 ∧
      ExceptOkP (fun r => List.Chain' (fun x y => x ≤ y) r.1)
        (calculate_Mx [(0 : ℝ), 1] 250 2 220 42.1 3) :=
  ⟨by norm_num, by norm_num,
    c10_mass_array_nondecreasing [(0 : ℝ), 1] 250 2 220 42.1 3
      (by norm_num) (by norm_num)⟩

/-! ### Grid-spacing validation (C4) -/

lemma isclose_self (a : ℝ) : isclose a a := by
  rw [isclose, sub_self, abs_zero, atol, rtol]
  positivity

lemma allclose_refl : ∀ l : List ℝ, allclose l l := by
  intro l
  induction l with
  | nil => exact trivial
  | cons a l ih => exact ⟨isclose_self a, ih⟩

lemma diff_cons_cons (x y : ℝ) (l : List ℝ) :
    diff (x :: y :: l) = (y - x) :: diff (y :: l) := rfl

lemma evenAxis_succ (v0 d : ℝ) (n : ℕ) :
    evenAxis v0 d (n + 1) = v0 :: evenAxis (v0 + d) d n := by
  rw [evenAxis, List.range_succ_eq_map, List.map_cons, List.map_map]
  refine congrArg₂ _ (by norm_num) ?_
  rw [evenAxis]
  refine List.map_congr_left ?_
  intro i _
  simp only [Function.comp_apply]
  push_cast
  ring

lemma diff_evenAxis (d : ℝ) : ∀ (n : ℕ) (v0 : ℝ),
    diff (evenAxis v0 d n) = List.replicate (n - 1) d := by
  intro n
  induction n with
  | zero => intro v0; rfl
  | succ n ih =>
      intro v0
      cases n with
      | zero => rfl
      | succ m =>
          rw [evenAxis_succ, evenAxis_succ, diff_cons_cons, ← evenAxis_succ, ih (v0 + d)]
          have hd : v0 + d - v0 = d := by ring
          rw [hd]
          rfl

/-- C4 counterexample: the axis `[0, 1, 2.00001, 3.00003]` has successive
differences `[1, 1.00001, 1.00002]`; the code's elementwise adjacent
comparison accepts it (so `calculate_Mx` does not raise
`InvalidGridSpacing`), while the spec's smallest-versus-largest comparison
rejects it — the two mechanisms are not equivalent. -/
theorem c4_minmax_mechanism_counterexample :
    allclose (diff [(0 : ℝ), 1, 2.00001, 3.00003]).dropLast
        (diff [(0 : ℝ), 1, 2.00001, 3.00003]).tail
    ∧ ¬ specMinMaxSpacingOK [(0 : ℝ), 1, 2.00001, 3.00003]
    ∧ calculate_Mx [(0 : ℝ), 1, 2.00001, 3.00003] 250 550 220 42.1 3 ≠
        Except.error MxError.InvalidGridSpacing := by
  have hd : diff [(0 : ℝ), 1, 2.00001, 3.00003] = [1, 1.00001, 1.00002] := by
    norm_num [diff]
  have hpass : allclose (diff [(0 : ℝ), 1, 2.00001, 3.00003]).dropLast
      (diff [(0 : ℝ), 1, 2.00001, 3.00003]).tail := by
    rw [hd]
    refine ⟨?_, ?_, trivial⟩
    · rw [isclose, abs_of_nonpos (by norm_num), abs_of_nonneg (by norm_num), atol, rtol]
      norm_num
    · rw [isclose, abs_of_nonpos (by norm_num), abs_of_nonneg (by norm_num), atol, rtol]
      norm_num
  refine ⟨hpass, ?_, ?_⟩
  · intro hspec
    rw [specMinMaxSpacingOK, hd] at hspec
    simp only [List.foldl_cons, List.foldl_nil] at hspec
    have hmin : min (min (1 : ℝ) 1.00001) 1.00002 = 1 := by norm_num [min_def]
    have hmax : max (max (1 : ℝ) 1.00001) 1.00002 = 1.00002 := by norm_num [max_def]
    rw [hmin, hmax, isclose, abs_of_nonpos (by norm_num),
      abs_of_nonneg (by norm_num), atol, rtol] at hspec
    norm_num at hspec
  · simp only [calculate_Mx, hd]
    rw [if_pos (by rw [← hd]; exact hpass)]
    split <;> simp

/-- C4 amended: the validation in `calculate_Mx` succeeds exactly when each
successive difference is approximately equal to the next one
(`np.allclose(steps[:-1], steps[1:])`, elementwise, rtol `1e-5`, atol
`1e-8`) — not when the smallest and largest differences compare close; any
evenly spaced axis is accepted and the perturbed axis `[0, 1, 2, 4]` is
rejected with `InvalidGridSpacing`. -/
theorem c4_spacing_validation_amended (vvir vesc vcirc vmin Arho v0 d : ℝ) (n : ℕ) :
    (∀ vels : List ℝ,
      calculate_Mx vels vvir vesc vcirc vmin Arho =
          Except.error MxError.InvalidGridSpacing ↔
        ¬ allclose (diff vels).dropLast (diff vels).tail)
    ∧ allclose (diff (evenAxis v0 d n)).dropLast (diff (evenAxis v0 d n)).tail
    ∧ calculate_Mx [0, 1, 2, 4] vvir vesc vcirc vmin Arho =
        Except.error MxError.InvalidGridSpacing := by
  refine ⟨?_, ?_, ?_⟩
  · intro vels
    constructor
    · intro heq
      by_contra hc
      simp only [calculate_Mx] at heq
      rw [if_pos hc] at heq
      split at heq
      · exact absurd heq (by simp)
      · split at heq <;> exact absurd heq (by simp)
    · intro h
      simp only [calculate_Mx]
      rw [if_neg h]
  · rw [diff_evenAxis]
    have h1 : (List.replicate (n - 1) d).dropLast = List.replicate (n - 1 - 1) d := by
      rw [List.dropLast_replicate]
    have h2 : (List.replicate (n - 1) d).tail = List.replicate (n - 1 - 1) d := by
      cases hn : n - 1 with
      | zero => rfl
      | succ m => rw [List.replicate_succ, List.tail_cons]; rfl
    rw [h1, h2]
    exact allclose_refl _
  · have hd : diff [(0 : ℝ), 1, 2, 4] = [1, 1, 2] := by norm_num [diff]
    have hfail : ¬ allclose (diff [(0 : ℝ), 1, 2, 4]).dropLast
        (diff [(0 : ℝ), 1, 2, 4]).tail := by
      rw [hd]
      intro hcl
      obtain ⟨-, h2, -⟩ := hcl
      rw [isclose, abs_of_nonpos (by norm_num), abs_of_nonneg (by norm_num),
        atol, rtol] at h2
      norm_num at h2
    simp only [calculate_Mx]
    rw [if_neg hfail]

end MacroLightning
